import Mathlib

/-!
Verification of the OpenAPI-specification generator in `src/generateSpec.ts`.

The TypeScript module is a flat pipeline of pure functions turning
routing-controllers route metadata (`IRoute`) into an OpenAPI 3.0 document.
This file gives a shallow embedding of that module: strings are Lean
`String`s (manipulated through their character lists), JavaScript objects
become structures, absent JS values become `Option`, and code that can
throw a `TypeError` (property access on `undefined`, which happens when
`Reflect.getMetadata` recovers no type) is embedded in the `Option` monad,
`none` standing for a thrown exception.

The two regular-expression scans of the source,

  * `path.replace(/:([A-Za-z0-9_]+)/gi, ...)` in `getFullPath`, and
  * `path.match(/{[A-Za-z0-9_]+}/gi)` in `getPathParams`,

are embedded as fuel-indexed structural recursions (`replaceColonGo`,
`placeholdersGo`), the fuel being the length of the scanned character list,
so that every definition is executable by the kernel.

The lodash helpers the source relies on (`_.find`, `_.filter`, `_.merge`,
`_.omitBy(…, _.isEmpty)`, `_.startCase`, `_.capitalize`, `_.get`) are
modelled by their documented semantics, specialised to the shapes that
actually occur here; `_.merge`'s deep merge is spelled out level by level
on the path/method/operation structure it is applied to.
-/

namespace RoutingControllersOpenapi

/-! ## Character-level machinery for the two placeholder regexes -/

/-- Characters matched by the `[A-Za-z0-9_]` classes of both regexes. -/
def wordChar (c : Char) : Bool := c.isAlphanum || c = '_'

/-- Fuel-indexed scan implementing the global replacement
`replace(/:([A-Za-z0-9_]+)/gi, '{$1}')`: each colon followed by a maximal
nonempty run of word characters is rewritten to the braced run, every other
character is copied.  The fuel is intended to be the length of the list;
when it runs out the rest of the input is returned unchanged (unreachable
under the wrapper `replaceColon`). -/
def replaceColonGo : Nat → List Char → List Char
  | _, [] => []
  | 0, s => s
  | fuel + 1, c :: rest =>
    if c = ':' ∧ rest.takeWhile wordChar ≠ [] then
      '{' :: (rest.takeWhile wordChar ++ '}' :: replaceColonGo fuel (rest.dropWhile wordChar))
    else
      c :: replaceColonGo fuel rest

/-- The replacement pass of `getFullPath`. -/
def replaceColon (s : List Char) : List Char := replaceColonGo s.length s

/-- Fuel-indexed scan implementing `match(/{[A-Za-z0-9_]+}/gi)` followed by
`slice(1, -1)`: returns, left to right, the braced maximal word runs of the
input, with the braces stripped.  A `'{'` that is not followed by a
nonempty word run and a closing `'}'` starts no match, and scanning resumes
at the next character, exactly as the regex engine does. -/
def placeholdersGo : Nat → List Char → List (List Char)
  | _, [] => []
  | 0, _ => []
  | fuel + 1, c :: rest =>
    if c = '{' ∧ rest.takeWhile wordChar ≠ [] ∧ (rest.dropWhile wordChar).head? = some '}' then
      rest.takeWhile wordChar :: placeholdersGo fuel (rest.dropWhile wordChar).tail
    else
      placeholdersGo fuel rest

/-- The `{name}` placeholder names of a character list, in order. -/
def placeholders (s : List Char) : List (List Char) := placeholdersGo s.length s

/-- The names of the `:name` tokens of a character list, in order: for each
colon followed by a maximal nonempty run of word characters, that run.
This is the claim-side description of what `getFullPath` rewrites. -/
def colonTokensGo : Nat → List Char → List (List Char)
  | _, [] => []
  | 0, _ => []
  | fuel + 1, c :: rest =>
    if c = ':' ∧ rest.takeWhile wordChar ≠ [] then
      rest.takeWhile wordChar :: colonTokensGo fuel (rest.dropWhile wordChar)
    else
      colonTokensGo fuel rest

/-- The `:name` token names of a character list, in order. -/
def colonTokens (s : List Char) : List (List Char) := colonTokensGo s.length s

/-! ## The route data model (`IRoute` of routing-controllers)

The `IRoute` interface itself is declared in `src/index.ts`, which is not
part of the sources; its shape is reconstructed from the field accesses of
`generateSpec.ts` and from the specification's data-model section
(controller / action / params / responseHandlers / options). -/

/-- A class value: all the source reads from a class is its `name` and, for
parameter type classes, whether `_.isNumber(cls.prototype)` holds (true
exactly for the `Number` constructor).  `protoIsNumber` records that test's
outcome. -/
structure TypeCls where
  name : String
  protoIsNumber : Bool
  deriving DecidableEq

/-- A controller or action target class; only its `name` is read. -/
structure TargetCls where
  name : String
  deriving DecidableEq

/-- Action metadata: HTTP method (`type`), route suffix, handler method
name, and the declaring class. -/
structure ActionMeta where
  route : String
  type : String
  method : String
  target : TargetCls
  deriving DecidableEq

/-- Controller metadata: route segment, response-type tag (`"json"` or
`"default"`), and the controller class. -/
structure ControllerMeta where
  route : String
  type : String
  target : TargetCls
  deriving DecidableEq

/-- One `@Param`/`@QueryParam`/`@QueryParams`/`@Body` declaration.  `object`
is the key of the declaring object in the reflect-metadata store, `method`
the property name, `index` the positional index into the recovered
parameter-type list.  `type` is the classification tag (`"param"`,
`"query"`, `"queries"`, `"body"`, ...). -/
structure ParamMeta where
  index : Nat
  name : Option String
  object : Nat
  method : String
  required : Option Bool
  type : String
  deriving DecidableEq

/-- A JavaScript primitive carried by a response handler: the
`@ContentType` / `@HttpCode` decorator values are strings or numbers. -/
inductive JSValue where
  | num : Int → JSValue
  | str : String → JSValue
  deriving DecidableEq

/-- JavaScript string coercion (`value + ''`, and object-key coercion). -/
def JSValue.coerceStr : JSValue → String
  | .num n => toString n
  | .str s => s

/-- Response-handler metadata: classification tag (`"content-type"`,
`"success-code"`, ...) and its value. -/
structure ResponseHandlerMeta where
  type : String
  value : JSValue
  deriving DecidableEq

/-- The nested options bag `options.defaults.paramOptions`. -/
structure ParamOptions where
  required : Option Bool
  deriving DecidableEq

/-- The nested options bag `options.defaults`. -/
structure DefaultsOptions where
  paramOptions : Option ParamOptions
  deriving DecidableEq

/-- The routing-controllers options of a route.  `routePfx` models the
optional `options.routePrefix` string. -/
structure RoutingOptions where
  routePfx : Option String
  defaults : Option DefaultsOptions
  deriving DecidableEq

/-- One registered route, as consumed by `generateSpec.ts`. -/
structure IRoute where
  action : ActionMeta
  controller : ControllerMeta
  options : RoutingOptions
  params : List ParamMeta
  responseHandlers : List ResponseHandlerMeta
  deriving DecidableEq

/-- The ambient reflect-metadata store behind
`Reflect.getMetadata('design:paramtypes', target, property)`: it may hold a
parameter-type list for a (target, property) pair, or nothing
(`undefined`). -/
def Metadata : Type := Nat → String → Option (List TypeCls)

/-- `getParamTypes(target, property)` of the source: a plain lookup in the
reflect-metadata store. -/
def getParamTypes (md : Metadata) (target : Nat) (property : String) :
    Option (List TypeCls) :=
  md target property

/-- `getParamTypes(object, method)[index]` followed by a property access on
the result, as every call site of the source performs: `none` when the
store has no entry (indexing `undefined` throws) or when the index is out
of range (the subsequent `.prototype`/`.name` access on `undefined`
throws). -/
def recoverType (md : Metadata) (object : Nat) (method : String) (index : Nat) :
    Option TypeCls :=
  match getParamTypes md object method with
  | none => none
  | some l => l.get? index

/-! ## `getFullPath` -/

/-- The concatenation `(options.routePrefix || '') + controller.route +
action.route` of `getFullPath`. -/
def concatRoute (r : IRoute) : String :=
  (r.options.routePfx.getD "") ++ r.controller.route ++ r.action.route

/-- `getFullPath(route)`: the concatenated route string with every `:name`
token rewritten to `{name}`. -/
def getFullPath (r : IRoute) : String :=
  String.mk (replaceColon (concatRoute r).data)

/-! ## The output object model

JavaScript objects with computed keys (`paths`, method maps, `content`,
`responses`) are modelled as association lists preserving insertion order.
A schema value is a JS object that may carry a `type` key, a `$ref` key,
or (after a lodash deep merge) both, so it is a record of two options. -/

/-- A schema object: `{ type: … }`, `{ $ref: … }`, or a merge of both. -/
structure SchemaObj where
  type : Option String
  ref : Option String
  deriving DecidableEq

/-- The inline primitive schema `{ type: t }`. -/
def SchemaObj.prim (t : String) : SchemaObj := { type := some t, ref := none }

/-- `makeRef(schemaName)` of the source. -/
def makeRef (schemaName : String) : SchemaObj :=
  { type := none, ref := some ("#/components/schemas/" ++ schemaName) }

/-- An OpenAPI parameter object as built by the source: all four keys are
always set. -/
structure ParameterObject where
  «in» : String
  name : String
  required : Bool
  schema : SchemaObj
  deriving DecidableEq

/-- A media-type object: `{}` in responses, `{ schema: … }` in request
bodies. -/
structure MediaObj where
  schema : Option SchemaObj
  deriving DecidableEq

/-- The request body object of `getRequestBody`. -/
structure RequestBodyObject where
  content : List (String × MediaObj)
  description : String
  required : Bool
  deriving DecidableEq

/-- One response entry of `getResponses`. -/
structure ResponseObject where
  content : List (String × MediaObj)
  description : String
  deriving DecidableEq

/-- An operation object after `_.omitBy(operation, _.isEmpty)`: a `none`
field is an absent key (the source drops empty strings, empty arrays,
empty objects and `undefined`). -/
structure OperationObject where
  operationId : Option String
  parameters : Option (List ParameterObject)
  requestBody : Option RequestBodyObject
  responses : Option (List (String × ResponseObject))
  summary : Option String
  tags : Option (List String)
  deriving DecidableEq

/-- The paths object: full path ↦ HTTP method ↦ operation. -/
abbrev PathObject : Type := List (String × List (String × OperationObject))

/-- The `info` block. -/
structure InfoObject where
  title : String
  version : String
  deriving DecidableEq

/-- The `components` block; the schema registry maps names to schema
objects but is never populated by this module. -/
structure ComponentsObject where
  schemas : List (String × SchemaObj)
  deriving DecidableEq

/-- The top-level OpenAPI document. -/
structure OpenAPIObject where
  components : ComponentsObject
  info : InfoObject
  openapi : String
  paths : PathObject
  deriving DecidableEq

/-! ## `isRequired` -/

/-- `_.get(route.options, 'defaults.paramOptions.required')`: the nested
optional lookup, `none` when any link is missing. -/
def globalRequired (o : RoutingOptions) : Option Bool :=
  match o.defaults with
  | none => none
  | some d =>
    match d.paramOptions with
    | none => none
    | some p => p.required

/-- `isRequired(meta, route)` of the source: if the global
`defaults.paramOptions.required` is truthy (i.e. `true`), the parameter is
required unless its own flag is explicitly `false`
(`meta.required !== false`); otherwise only an explicit `true` makes it
required (`!!meta.required`). -/
def isRequired (required : Option Bool) (route : IRoute) : Bool :=
  match globalRequired route.options with
  | some true => !(required == some false)
  | _ => required == some true

/-! ## Parameter derivation -/

/-- Left-to-right effectful map over a list in the `Option` monad: the JS
`Array.prototype.map` whose callback may throw. -/
def optionMapM (f : α → Option β) : List α → Option (List β)
  | [] => some []
  | a :: as =>
    match f a, optionMapM f as with
    | some b, some bs => some (b :: bs)
    | _, _ => none

/-- The body of the `paramNames.map` callback of `getPathParams`: a default
required string path parameter, overridden from the first matching
`@Param` declaration (`_.find(route.params, { name, type: 'param' })`)
when one exists; recovering that declaration's runtime type can throw. -/
def pathEntry (md : Metadata) (r : IRoute) (name : String) : Option ParameterObject :=
  match r.params.find? (fun m => m.name == some name && m.type == "param") with
  | none =>
    some { «in» := "path", name := name, required := true,
           schema := SchemaObj.prim "string" }
  | some meta =>
    match recoverType md meta.object meta.method meta.index with
    | none => none
    | some typeCls =>
      some { «in» := "path", name := name,
             required := isRequired meta.required r,
             schema := SchemaObj.prim
               (if typeCls.protoIsNumber then "number" else "string") }

/-- `getPathParams(route)`: one parameter object per `{name}` placeholder
occurrence of the full path, in order. -/
def getPathParams (md : Metadata) (r : IRoute) : Option (List ParameterObject) :=
  optionMapM (pathEntry md r) ((placeholders (getFullPath r).data).map String.mk)

/-- The body of the `.filter({ type: 'query' }).map(…)` callback of
`getQueryParams`. -/
def queryEntry (md : Metadata) (r : IRoute) (m : ParamMeta) : Option ParameterObject :=
  match recoverType md m.object m.method m.index with
  | none => none
  | some typeCls =>
    some { «in» := "query", name := m.name.getD "",
           required := isRequired m.required r,
           schema := SchemaObj.prim
             (if typeCls.protoIsNumber then "number" else "string") }

/-- `getQueryParams(route)`: one entry per `@QueryParam` declaration in
declaration order, plus, when a `@QueryParams` (type `"queries"`)
declaration exists, one trailing entry named after its recovered type with
a `$ref` schema. -/
def getQueryParams (md : Metadata) (r : IRoute) : Option (List ParameterObject) :=
  match optionMapM (queryEntry md r) (r.params.filter (fun m => m.type == "query")) with
  | none => none
  | some queries =>
    match r.params.find? (fun m => m.type == "queries") with
    | none => some queries
    | some queriesMeta =>
      match recoverType md queriesMeta.object queriesMeta.method queriesMeta.index with
      | none => none
      | some typeCls =>
        some (queries ++
          [{ «in» := "query", name := typeCls.name,
             required := isRequired queriesMeta.required r,
             schema := makeRef typeCls.name }])

/-- `getRequestBody(route)`: the outer `Option` is a possible throw, the
inner `Option` the `void` return when no `@Body` declaration exists. -/
def getRequestBody (md : Metadata) (r : IRoute) : Option (Option RequestBodyObject) :=
  match r.params.find? (fun m => m.type == "body") with
  | none => some none
  | some meta =>
    match recoverType md meta.object meta.method meta.index with
    | none => none
    | some typeCls =>
      some (some
        { content := [("application/json", { schema := some (makeRef typeCls.name) })],
          description := typeCls.name,
          required := isRequired meta.required r })

/-! ## `getResponses`, `getOperationId`, `getTags`, `getSummary` -/

/-- `getResponses(route)`: a single entry keyed by the resolved success
status, holding an empty media object under the resolved content type. -/
def getResponses (r : IRoute) : List (String × ResponseObject) :=
  let isJSON := r.controller.type == "json"
  let defaultContentType :=
    if isJSON then "application/json" else "text/html; charset=utf-8"
  let contentType :=
    match r.responseHandlers.find? (fun h => h.type == "content-type") with
    | some contentMeta => contentMeta.value.coerceStr
    | none => defaultContentType
  let successStatus :=
    match r.responseHandlers.find? (fun h => h.type == "success-code") with
    | some successMeta => successMeta.value.coerceStr
    | none => "200"
  [(successStatus,
    { content := [(contentType, { schema := none })],
      description := "Successful response" })]

/-- `getOperationId(route)`. -/
def getOperationId (r : IRoute) : String :=
  r.action.target.name ++ "." ++ r.action.method

/-- Fuel-indexed embedding of the lodash `words` splitter, restricted to
the ASCII behaviour the source exercises: maximal digit runs, maximal
lower-case runs (with an optional leading capital), and maximal upper-case
runs whose last letter starts the next word when followed by a lower-case
letter; every other character separates words.  (The lodash ordinal-suffix
and apostrophe rules are not modelled; no claim depends on them.) -/
def wordsGo : Nat → List Char → List (List Char)
  | _, [] => []
  | 0, _ => []
  | fuel + 1, c :: rest =>
    if c.isDigit then
      (c :: rest.takeWhile Char.isDigit) :: wordsGo fuel (rest.dropWhile Char.isDigit)
    else if c.isLower then
      (c :: rest.takeWhile Char.isLower) :: wordsGo fuel (rest.dropWhile Char.isLower)
    else if c.isUpper then
      match (rest.dropWhile Char.isUpper).head? with
      | some d =>
        if d.isLower then
          if rest.takeWhile Char.isUpper = [] then
            (c :: rest.takeWhile Char.isLower) :: wordsGo fuel (rest.dropWhile Char.isLower)
          else
            (c :: (rest.takeWhile Char.isUpper).dropLast) ::
              wordsGo fuel ((rest.takeWhile Char.isUpper).getLastD 'A' ::
                rest.dropWhile Char.isUpper)
        else
          (c :: rest.takeWhile Char.isUpper) :: wordsGo fuel (rest.dropWhile Char.isUpper)
      | none =>
        (c :: rest.takeWhile Char.isUpper) :: wordsGo fuel (rest.dropWhile Char.isUpper)
    else
      wordsGo fuel rest

/-- The word list of a character list (lodash `_.words`, ASCII model). -/
def words (s : List Char) : List (List Char) := wordsGo s.length s

/-- Lodash `_.upperFirst`: upper-case the first character. -/
def upperFirstStr (s : String) : String :=
  match s.data with
  | [] => s
  | c :: cs => String.mk (c.toUpper :: cs)

/-- Full lower-casing of a string (`String.prototype.toLowerCase`, ASCII). -/
def lowerStr (s : String) : String := String.mk (s.data.map Char.toLower)

/-- Lodash `_.capitalize`: upper-case the first character of the
lower-cased string — note that it lower-cases everything after the first
character. -/
def capitalize (s : String) : String := upperFirstStr (lowerStr s)

/-- Lodash `_.startCase`: upper-first each word, joined by single spaces. -/
def startCase (s : String) : String :=
  String.intercalate " " ((words s.data).map (fun w => upperFirstStr (String.mk w)))

/-- `getSummary(route)` = `_.capitalize(_.startCase(route.action.method))`. -/
def getSummary (r : IRoute) : String :=
  capitalize (startCase r.action.method)

/-- `name.replace(/Controller$/, '')`: strip one trailing `"Controller"`. -/
def stripControllerSuffix (s : String) : String :=
  if s.data.length ≥ 10 ∧ s.data.drop (s.data.length - 10) = "Controller".data then
    String.mk (s.data.take (s.data.length - 10))
  else s

/-- `getTags(route)`. -/
def getTags (r : IRoute) : List String :=
  [startCase (stripControllerSuffix r.controller.target.name)]

/-! ## `getOperation` -/

/-- `getOperation(route)`: assembles the operation object and then drops
every `_.isEmpty` field (empty string, empty array, `undefined`).
`operationId` always contains a dot and `tags` is always a one-element
array, but the `_.omitBy` tests are embedded faithfully anyway.  A `none`
result is a thrown `TypeError` from parameter-type recovery. -/
def getOperation (md : Metadata) (r : IRoute) : Option OperationObject :=
  match getPathParams md r, getQueryParams md r, getRequestBody md r with
  | some pathParams, some queryParams, some requestBody =>
    let parameters := pathParams ++ queryParams
    let operationId := getOperationId r
    let responses := getResponses r
    let summary := getSummary r
    let tags := getTags r
    some
      { operationId := if operationId = "" then none else some operationId,
        parameters := if parameters = [] then none else some parameters,
        requestBody := requestBody,
        responses := if responses = [] then none else some responses,
        summary := if summary = "" then none else some summary,
        tags := if tags = [] then none else some tags }
  | _, _, _ => none

/-! ## Lodash deep merge, specialised to the paths structure

`_.merge(dst, src)` copies `src` into `dst` key by key: a key absent from
`dst` is appended, a key present in both has its values merged —
recursively for plain objects, index-wise for arrays (the longer array's
tail surviving), and by replacement for primitives; `undefined` source
values never overwrite. -/

/-- Merge one source key/value pair into an association list. -/
def insertMerge (m : β → β → β) : List (String × β) → String → β → List (String × β)
  | [], k, v => [(k, v)]
  | (k', v') :: rest, k, v =>
    if k' = k then (k', m v' v) :: rest
    else (k', v') :: insertMerge m rest k v

/-- Merge two association lists (objects with computed keys). -/
def mergeAssoc (m : β → β → β) (dst src : List (String × β)) : List (String × β) :=
  src.foldl (fun acc kv => insertMerge m acc kv.1 kv.2) dst

/-- Index-wise array merge. -/
def mergeList (m : α → α → α) : List α → List α → List α
  | dst, [] => dst
  | [], src => src
  | d :: ds, s :: ss => m d s :: mergeList m ds ss

/-- Merge an optional (possibly absent) field: an absent source field never
overwrites. -/
def mergeOptField (m : α → α → α) : Option α → Option α → Option α
  | a, none => a
  | none, some b => some b
  | some a, some b => some (m a b)

/-- Deep merge of two schema objects (key-wise on `type` / `$ref`). -/
def mergeSchema (a b : SchemaObj) : SchemaObj :=
  { type := b.type <|> a.type, ref := b.ref <|> a.ref }

/-- Deep merge of two parameter objects: primitives replaced, schema merged. -/
def mergeParameter (a b : ParameterObject) : ParameterObject :=
  { «in» := b.«in», name := b.name, required := b.required,
    schema := mergeSchema a.schema b.schema }

/-- Deep merge of two media objects. -/
def mergeMedia (a b : MediaObj) : MediaObj :=
  { schema := mergeOptField mergeSchema a.schema b.schema }

/-- Deep merge of two request bodies. -/
def mergeRequestBody (a b : RequestBodyObject) : RequestBodyObject :=
  { content := mergeAssoc mergeMedia a.content b.content,
    description := b.description, required := b.required }

/-- Deep merge of two response entries. -/
def mergeResponse (a b : ResponseObject) : ResponseObject :=
  { content := mergeAssoc mergeMedia a.content b.content,
    description := b.description }

/-- Deep merge of two operation objects, field by field. -/
def mergeOperation (a b : OperationObject) : OperationObject :=
  { operationId := b.operationId <|> a.operationId,
    parameters := mergeOptField (mergeList mergeParameter) a.parameters b.parameters,
    requestBody := mergeOptField mergeRequestBody a.requestBody b.requestBody,
    responses := mergeOptField (mergeAssoc mergeResponse) a.responses b.responses,
    summary := b.summary <|> a.summary,
    tags := mergeOptField (mergeList (fun _ t => t)) a.tags b.tags }

/-- Deep merge of two method maps. -/
def mergeMethods (dst src : List (String × OperationObject)) :
    List (String × OperationObject) :=
  mergeAssoc mergeOperation dst src

/-- Deep merge of two paths objects. -/
def mergePathObj (dst src : PathObject) : PathObject :=
  mergeAssoc mergeMethods dst src

/-! ## `getPaths` and `getSpec` -/

/-- The single-route fragment `{ [getFullPath(route)]: { [route.action.type]:
getOperation(route) } }` of `getPaths`. -/
def routeFragment (md : Metadata) (r : IRoute) :
    Option (String × List (String × OperationObject)) :=
  match getOperation md r with
  | none => none
  | some op => some (getFullPath r, [(r.action.type, op)])

/-- `getPaths(routes)`: the route fragments, deep-merged left to right
(`_.merge(...routePaths)`; with no routes the spread merge yields
`undefined`, modelled as the empty paths object). -/
def getPaths (md : Metadata) (routes : List IRoute) : Option PathObject :=
  match optionMapM (routeFragment md) routes with
  | none => none
  | some [] => some []
  | some (f :: fs) => some (fs.foldl (fun acc g => mergePathObj acc [g]) [f])

/-- `getSpec(routes)`: the fixed document shell around the merged paths. -/
def getSpec (md : Metadata) (routes : List IRoute) : Option OpenAPIObject :=
  match getPaths md routes with
  | none => none
  | some paths =>
    some { components := { schemas := [] },
           info := { title := "", version := "1.0.0" },
           openapi := "3.0.0",
           paths := paths }

theorem sanity_getFullPath :
    getFullPath
      { action := { route := "/:id", type := "get", method := "getOne",
                    target := { name := "UserController" } },
        controller := { route := "/users", type := "json",
                        target := { name := "UserController" } },
        options := { routePfx := some "/api", defaults := none },
        params := [], responseHandlers := [] } = "/api/users/{id}" := by
  decide

/-- A store with one recorded parameter-type list: `UserController.getOne`
takes a single `Number`. -/
def mdSample : Metadata := fun o m =>
  if o = 0 ∧ m = "getOne" then some [{ name := "Number", protoIsNumber := true }] else none

/-- The scenario route of the specification: prefix `/api`, controller
`/users`, action `/:id`, one declared path parameter `id` of numeric type
with no explicit required flag. -/
def routeSample : IRoute :=
  { action := { route := "/:id", type := "get", method := "getOne",
                target := { name := "UserController" } },
    controller := { route := "/users", type := "json",
                    target := { name := "UserController" } },
    options := { routePfx := some "/api", defaults := none },
    params := [{ index := 0, name := some "id", object := 0, method := "getOne",
                 required := none, type := "param" }],
    responseHandlers := [] }

theorem sanity_getPathParams :
    getPathParams mdSample routeSample =
      some [{ «in» := "path", name := "id", required := false,
              schema := SchemaObj.prim "number" }] := by
  decide

theorem sanity_getSummary : getSummary routeSample = "Get one" := by decide

theorem sanity_getResponses :
    getResponses routeSample =
      [("200", { content := [("application/json", { schema := none })],
                 description := "Successful response" })] := by
  decide

theorem sanity_getTags : getTags routeSample = ["User"] := by decide

/-! ## Lemmas about the placeholder scans (towards claim C1) -/

theorem takeWhile_append_stop {p : α → Bool} {y : α} (hy : p y = false) :
    ∀ {name l : List α}, (∀ x ∈ name, p x = true) →
      (name ++ y :: l).takeWhile p = name ∧ (name ++ y :: l).dropWhile p = y :: l := by
  intro name
  induction name with
  | nil =>
    intro l _
    simp [List.takeWhile, List.dropWhile, hy]
  | cons a as ih =>
    intro l hall
    have ha : p a = true := hall a (List.mem_cons_self a as)
    have tail := ih (l := l) (fun x hx => hall x (List.mem_cons_of_mem a hx))
    simp [List.takeWhile, List.dropWhile, ha, tail.1, tail.2]

theorem placeholdersGo_fuel :
    ∀ (f : Nat) (g : Nat) (s : List Char), s.length ≤ f → s.length ≤ g →
      placeholdersGo f s = placeholdersGo g s := by
  intro f
  induction f with
  | zero =>
    intro g s hf _
    have : s = [] := List.length_eq_zero.mp (Nat.le_zero.mp hf)
    subst this
    simp [placeholdersGo]
  | succ f ih =>
    intro g s hf hg
    match s, g with
    | [], _ => simp [placeholdersGo]
    | c :: rest, 0 => exact absurd hg (by simp)
    | c :: rest, g + 1 =>
      have hrf : rest.length ≤ f := Nat.lt_succ_iff.mp hf
      have hrg : rest.length ≤ g := Nat.lt_succ_iff.mp hg
      have hd : (rest.dropWhile wordChar).length ≤ rest.length :=
        (List.dropWhile_sublist wordChar).length_le
      have ht : (rest.dropWhile wordChar).tail.length ≤ rest.length := by
        rw [List.length_tail]
        omega
      simp only [placeholdersGo]
      split
      · rw [ih g (rest.dropWhile wordChar).tail (le_trans ht hrf) (le_trans ht hrg)]
      · rw [ih g rest hrf hrg]

theorem placeholders_cons_of_ne {c : Char} (h : c ≠ '{') (l : List Char) :
    placeholders (c :: l) = placeholders l := by
  show placeholdersGo (l.length + 1) (c :: l) = placeholdersGo l.length l
  simp only [placeholdersGo]
  rw [if_neg]
  intro hcond
  exact h hcond.1

theorem placeholders_token {name : List Char} (hne : name ≠ [])
    (hall : ∀ x ∈ name, wordChar x = true) (l : List Char) :
    placeholders ('{' :: (name ++ '}' :: l)) = name :: placeholders l := by
  have hbr : wordChar '}' = false := by decide
  have hsplit := takeWhile_append_stop (p := wordChar) hbr (l := l) hall
  show placeholdersGo ((name ++ '}' :: l).length + 1) ('{' :: (name ++ '}' :: l)) = _
  have hcond : '{' = '{' ∧ (name ++ '}' :: l).takeWhile wordChar ≠ [] ∧
      ((name ++ '}' :: l).dropWhile wordChar).head? = some '}' := by
    refine ⟨rfl, ?_, ?_⟩
    · rw [hsplit.1]; exact hne
    · rw [hsplit.2]; rfl
  have hlen : l.length ≤ (name ++ '}' :: l).length := by
    simp [List.length_append]
    omega
  simp only [placeholdersGo]
  rw [if_pos ⟨trivial, hcond.2⟩, hsplit.1, hsplit.2, List.tail_cons,
    placeholdersGo_fuel (name ++ '}' :: l).length l.length l hlen le_rfl]
  rfl

theorem placeholders_replaceColonGo :
    ∀ (fuel : Nat) (s : List Char), s.length ≤ fuel → '{' ∉ s →
      placeholders (replaceColonGo fuel s) = colonTokensGo fuel s := by
  intro fuel
  induction fuel with
  | zero =>
    intro s hf _
    have : s = [] := List.length_eq_zero.mp (Nat.le_zero.mp hf)
    subst this
    simp [replaceColonGo, colonTokensGo, placeholders, placeholdersGo]
  | succ fuel ih =>
    intro s hf hnb
    match s with
    | [] => simp [replaceColonGo, colonTokensGo, placeholders, placeholdersGo]
    | c :: rest =>
      have hrf : rest.length ≤ fuel := Nat.lt_succ_iff.mp hf
      have hc : c ≠ '{' := fun h => hnb (h ▸ List.mem_cons_self c rest)
      have hrest : '{' ∉ rest := fun h => hnb (List.mem_cons_of_mem c h)
      simp only [replaceColonGo, colonTokensGo]
      split
      · rename_i hcond
        have hne : rest.takeWhile wordChar ≠ [] := hcond.2
        have hall : ∀ x ∈ rest.takeWhile wordChar, wordChar x = true :=
          fun x hx => List.mem_takeWhile_imp hx
        rw [placeholders_token hne hall]
        have hdl : (rest.dropWhile wordChar).length ≤ fuel :=
          le_trans (List.dropWhile_sublist wordChar).length_le hrf
        have hdb : '{' ∉ rest.dropWhile wordChar :=
          fun h => hrest ((List.dropWhile_sublist wordChar).subset h)
        rw [ih (rest.dropWhile wordChar) hdl hdb]
      · rw [placeholders_cons_of_ne hc]
        rw [ih rest hrf hrest]

/-! ## Claim C1 -/

/-- A route whose controller route contains a literal brace placeholder:
`getFullPath` leaves it untouched, so the result carries a `{name}`
placeholder with no corresponding `:name` token. -/
def routeBrace : IRoute :=
  { action := { route := "", type := "get", method := "m", target := { name := "C" } },
    controller := { route := "{a}", type := "json", target := { name := "C" } },
    options := { routePfx := none, defaults := none },
    params := [], responseHandlers := [] }

/-- Counterexample to C1 as stated: on `routeBrace` the concatenated route
string has no `:name` token at all, yet `getFullPath`'s result contains
the placeholder `{a}`, so the placeholders do not correspond one-to-one to
the colon tokens. -/
theorem getFullPath_brace_counterexample :
    getFullPath routeBrace = "{a}" ∧
    colonTokens (concatRoute routeBrace).data = [] ∧
    placeholders (getFullPath routeBrace).data = [['a']] ∧
    placeholders (getFullPath routeBrace).data ≠ colonTokens (concatRoute routeBrace).data := by
  decide

/-- C1 (amended): for every route whose concatenated
prefix + controller + action route string contains no literal `'{'`
character, `getFullPath` returns that concatenation with every `:name`
token (over alphanumeric/underscore characters) rewritten to `{name}`, and
the result contains exactly one `{name}` placeholder per `:name` token, in
the same relative order, and no other placeholders. -/
theorem getFullPath_tokens (r : IRoute) (h : '{' ∉ (concatRoute r).data) :
    getFullPath r = String.mk (replaceColon (concatRoute r).data) ∧
    placeholders (getFullPath r).data = colonTokens (concatRoute r).data :=
  ⟨rfl,
   placeholders_replaceColonGo (concatRoute r).data.length (concatRoute r).data le_rfl h⟩

theorem getFullPath_tokens_witness :
    '{' ∉ (concatRoute routeSample).data ∧
    placeholders (getFullPath routeSample).data = colonTokens (concatRoute routeSample).data :=
  ⟨by decide, (getFullPath_tokens routeSample (by decide)).2⟩

/-! ## Claim C3 -/

/-- A route whose options carry the global
`defaults.paramOptions.required = true` flag. -/
def routeGlobalRequired : IRoute :=
  { action := { route := "", type := "get", method := "m", target := { name := "C" } },
    controller := { route := "/c", type := "json", target := { name := "C" } },
    options := { routePfx := none,
                 defaults := some { paramOptions := some { required := some true } } },
    params := [], responseHandlers := [] }

/-- C3: `isRequired` classifies a parameter as required iff, when the
route's options set `defaults.paramOptions.required = true`, its own flag
is not explicitly `false`, and otherwise its own flag is explicitly
`true`; in particular the global flag with no explicit flag gives
required, neither flag gives not required, and an explicit `false`
overrides a true global default. -/
theorem isRequired_rule (required : Option Bool) (r : IRoute) :
    (isRequired required r = true ↔
      (if globalRequired r.options = some true
       then required ≠ some false else required = some true)) ∧
    (globalRequired r.options = some true → required = none →
      isRequired required r = true) ∧
    (globalRequired r.options = none → required = none →
      isRequired required r = false) ∧
    (required = some false → isRequired required r = false) := by
  rcases hg : globalRequired r.options with _ | b
  · rcases required with _ | c
    · simp only [isRequired, hg]; decide
    · rcases c with _ | _ <;> (simp only [isRequired, hg]; decide)
  · rcases b with _ | _ <;> rcases required with _ | c
    · simp only [isRequired, hg]; decide
    · rcases c with _ | _ <;> (simp only [isRequired, hg]; decide)
    · simp only [isRequired, hg]; decide
    · rcases c with _ | _ <;> (simp only [isRequired, hg]; decide)

theorem isRequired_rule_witness :
    globalRequired routeGlobalRequired.options = some true ∧
    isRequired none routeGlobalRequired = true :=
  ⟨by decide, (isRequired_rule none routeGlobalRequired).2.1 (by decide) rfl⟩

/-! ## Claim C5 -/

/-- C5: `getResponses` returns exactly one entry, keyed by the first
success-code handler's value coerced to a string (default `"200"`), whose
content is keyed by the first content-type handler's value (default
`application/json` for a json controller, `text/html; charset=utf-8`
otherwise) with an empty content body, and whose description is
`"Successful response"`. -/
theorem getResponses_single_entry (r : IRoute) :
    getResponses r =
      [((match r.responseHandlers.find? (fun h => h.type == "success-code") with
         | some successMeta => successMeta.value.coerceStr
         | none => "200"),
        { content :=
            [((match r.responseHandlers.find? (fun h => h.type == "content-type") with
               | some contentMeta => contentMeta.value.coerceStr
               | none =>
                 if r.controller.type == "json" then "application/json"
                 else "text/html; charset=utf-8"),
              { schema := none })],
          description := "Successful response" })] ∧
    (getResponses r).length = 1 :=
  ⟨rfl, rfl⟩

/-! ## Claim C8 -/

/-- Claim-side reading of C8's mechanism: capitalize only the first letter
of the title-cased phrase, preserving the rest of the phrase's casing from
the title-case conversion. -/
def summarySpec (r : IRoute) : String := upperFirstStr (startCase r.action.method)

/-- Counterexample to C8 as stated: for the method name `"getOne"` the
title-cased phrase is `"Get One"`; preserving its casing after
capitalizing the first letter would give `"Get One"`, but `getSummary`
lower-cases the remainder and yields `"Get one"`. -/
theorem getSummary_counterexample :
    startCase routeSample.action.method = "Get One" ∧
    summarySpec routeSample = "Get One" ∧
    getSummary routeSample = "Get one" ∧
    getSummary routeSample ≠ summarySpec routeSample := by
  decide

/-- C8 (amended): `getSummary` converts the action's method name to
space-separated title case and then capitalizes the first letter of the
phrase while lower-casing the entire remainder (`_.capitalize`), e.g.
`"getUser"` yields `"Get user"`. -/
theorem getSummary_lowercases_rest (r : IRoute) :
    getSummary r = capitalize (startCase r.action.method) ∧
    (getSummary r).data.drop 1 =
      ((startCase r.action.method).data.map Char.toLower).drop 1 := by
  refine ⟨rfl, ?_⟩
  show (upperFirstStr (lowerStr (startCase r.action.method))).data.drop 1 = _
  rcases h : (startCase r.action.method).data.map Char.toLower with _ | ⟨c, cs⟩
  · simp [upperFirstStr, lowerStr, h]
  · simp [upperFirstStr, lowerStr, h]

/-! ## Lemmas about `optionMapM` -/

theorem optionMapM_eq_some {f : α → Option β} :
    ∀ {l : List α} {ys : List β}, optionMapM f l = some ys →
      ys.length = l.length ∧
      ∀ i (h1 : i < l.length) (h2 : i < ys.length), f l[i] = some ys[i] := by
  intro l
  induction l with
  | nil =>
    intro ys h
    simp [optionMapM] at h
    subst h
    simp
  | cons a as ih =>
    intro ys h
    simp only [optionMapM] at h
    rcases hfa : f a with _ | b <;> rw [hfa] at h
    · exact absurd h (by simp)
    · rcases hrec : optionMapM f as with _ | bs <;> rw [hrec] at h
      · exact absurd h (by simp)
      · rcases (ih hrec) with ⟨hlen, hpt⟩
        simp only [Option.some_inj] at h
        subst h
        refine ⟨by simp [hlen], ?_⟩
        intro i h1 h2
        match i with
        | 0 => simpa using hfa
        | i + 1 =>
          have h1' : i < as.length := by simpa using h1
          have h2' : i < bs.length := by simpa using h2
          simpa using hpt i h1' h2'

theorem optionMapM_mem {f : α → Option β} :
    ∀ {l : List α} {ys : List β}, optionMapM f l = some ys →
      ∀ y ∈ ys, ∃ a ∈ l, f a = some y := by
  intro l
  induction l with
  | nil =>
    intro ys h
    simp [optionMapM] at h
    subst h
    simp
  | cons a as ih =>
    intro ys h
    simp only [optionMapM] at h
    rcases hfa : f a with _ | b <;> rw [hfa] at h
    · exact absurd h (by simp)
    · rcases hrec : optionMapM f as with _ | bs <;> rw [hrec] at h
      · exact absurd h (by simp)
      · simp only [Option.some_inj] at h
        subst h
        intro y hy
        rcases List.mem_cons.mp hy with hy | hy
        · exact ⟨a, List.mem_cons_self a as, hy ▸ hfa⟩
        · rcases ih hrec y hy with ⟨x, hx, hfx⟩
          exact ⟨x, List.mem_cons_of_mem a hx, hfx⟩

theorem optionMapM_isSome {f : α → Option β} :
    ∀ {l : List α}, (∀ a ∈ l, (f a).isSome = true) →
      (optionMapM f l).isSome = true := by
  intro l
  induction l with
  | nil => intro _; simp [optionMapM]
  | cons a as ih =>
    intro h
    have ha := h a (List.mem_cons_self a as)
    have has := ih (fun x hx => h x (List.mem_cons_of_mem a hx))
    simp only [optionMapM]
    rcases hfa : f a with _ | b
    · rw [hfa] at ha; simp at ha
    · rcases hrec : optionMapM f as with _ | bs
      · rw [hrec] at has; simp at has
      · simp

/-! ## Claim C2 -/

/-- C2: `getPathParams` returns one parameter object per `{name}`
placeholder occurrence of the normalized full path, in left-to-right order
(duplicates included); each entry has location `"path"` and carries the
placeholder's name; when no `@Param` declaration of type `"param"` with
that exact name exists the entry defaults to required with schema type
`"string"`, and when the first such declaration exists its `required`
flag is resolved by `isRequired` and its schema type is `"number"` exactly
when the recovered runtime type is number-like, else `"string"`. -/
theorem getPathParams_entries (md : Metadata) (r : IRoute) (ps : List ParameterObject)
    (h : getPathParams md r = some ps) :
    ps.length = (placeholders (getFullPath r).data).length ∧
    ∀ i (h1 : i < (placeholders (getFullPath r).data).length) (h2 : i < ps.length),
      ps[i].«in» = "path" ∧
      ps[i].name = String.mk (placeholders (getFullPath r).data)[i] ∧
      (match r.params.find?
          (fun m => m.name == some (String.mk (placeholders (getFullPath r).data)[i]) &&
                    m.type == "param") with
       | none => ps[i].required = true ∧ ps[i].schema = SchemaObj.prim "string"
       | some meta =>
         ∃ t, recoverType md meta.object meta.method meta.index = some t ∧
           ps[i].required = isRequired meta.required r ∧
           ps[i].schema =
             SchemaObj.prim (if t.protoIsNumber then "number" else "string")) := by
  simp only [getPathParams] at h
  rcases optionMapM_eq_some h with ⟨hlen, hpt⟩
  constructor
  · simpa using hlen
  · intro i h1 h2
    have h1' : i < ((placeholders (getFullPath r).data).map String.mk).length := by
      simpa using h1
    have hp := hpt i h1' h2
    rw [List.getElem_map] at hp
    simp only [pathEntry] at hp
    rcases hf : r.params.find?
        (fun m => m.name == some (String.mk (placeholders (getFullPath r).data)[i]) &&
                  m.type == "param") with _ | meta <;>
      simp only [hf] at hp ⊢
    · rw [Option.some_inj] at hp
      rw [← hp]
      exact ⟨rfl, rfl, rfl, rfl⟩
    · rcases ht : recoverType md meta.object meta.method meta.index with _ | t <;>
        simp only [ht] at hp
      · exact absurd hp (by simp)
      · rw [Option.some_inj] at hp
        rw [← hp]
        exact ⟨rfl, rfl, t, rfl, rfl, rfl⟩

theorem getPathParams_entries_witness :
    ([{ «in» := "path", name := "id", required := false,
        schema := SchemaObj.prim "number" }] : List ParameterObject).length =
      (placeholders (getFullPath routeSample).data).length :=
  (getPathParams_entries mdSample routeSample
    [{ «in» := "path", name := "id", required := false,
       schema := SchemaObj.prim "number" }] (by decide)).1

/-! ## Claim C10 -/

/-- C10: when a route declares a `"queries"` parameter, `getQueryParams`
appends the single queries-derived entry (named after its recovered type,
with a `$ref` schema) after all single-field query entries, regardless of
the descriptor's position among the declared parameters, and only the
first `"queries"` descriptor (the one `find?` returns) contributes. -/
theorem getQueryParams_queries_last (md : Metadata) (r : IRoute)
    (qs : List ParameterObject) (qm : ParamMeta)
    (h : getQueryParams md r = some qs)
    (hf : r.params.find? (fun m => m.type == "queries") = some qm) :
    ∃ base t,
      optionMapM (queryEntry md r) (r.params.filter (fun m => m.type == "query")) =
        some base ∧
      recoverType md qm.object qm.method qm.index = some t ∧
      qs = base ++ [{ «in» := "query", name := t.name,
                      required := isRequired qm.required r,
                      schema := makeRef t.name }] := by
  simp only [getQueryParams] at h
  rcases hb : optionMapM (queryEntry md r) (r.params.filter (fun m => m.type == "query"))
      with _ | base <;> simp only [hb] at h
  · exact absurd h (by simp)
  · simp only [hf] at h
    rcases ht : recoverType md qm.object qm.method qm.index with _ | t <;>
      simp only [ht] at h
    · exact absurd h (by simp)
    · rw [Option.some_inj] at h
      exact ⟨base, t, rfl, rfl, h.symm⟩

/-- The reflect-metadata store for `routeQueries`: `PetController.list`
takes a `String`, a `ListQuery` object and a `Number`. -/
def mdQueries : Metadata := fun o m =>
  if o = 1 ∧ m = "list" then
    some [{ name := "String", protoIsNumber := false },
          { name := "ListQuery", protoIsNumber := false },
          { name := "Number", protoIsNumber := true }]
  else none

/-- The `"queries"` descriptor of `routeQueries`, declared between its two
single-field query descriptors. -/
def qmQueries : ParamMeta :=
  { index := 1, name := none, object := 1, method := "list",
    required := none, type := "queries" }

/-- A route with two `@QueryParam` descriptors surrounding a
`@QueryParams` descriptor. -/
def routeQueries : IRoute :=
  { action := { route := "", type := "get", method := "list",
                target := { name := "PetController" } },
    controller := { route := "/pets", type := "json",
                    target := { name := "PetController" } },
    options := { routePfx := none, defaults := none },
    params := [
      { index := 0, name := some "q", object := 1, method := "list",
        required := none, type := "query" },
      qmQueries,
      { index := 2, name := some "limit", object := 1, method := "list",
        required := some true, type := "query" }],
    responseHandlers := [] }

theorem getQueryParams_queries_last_witness :
    ∃ base t,
      optionMapM (queryEntry mdQueries routeQueries)
        (routeQueries.params.filter (fun m => m.type == "query")) = some base ∧
      recoverType mdQueries qmQueries.object qmQueries.method qmQueries.index = some t ∧
      ([{ «in» := "query", name := "q", required := false,
          schema := SchemaObj.prim "string" },
        { «in» := "query", name := "limit", required := true,
          schema := SchemaObj.prim "number" },
        { «in» := "query", name := "ListQuery", required := false,
          schema := makeRef "ListQuery" }] : List ParameterObject) =
        base ++ [{ «in» := "query", name := t.name,
                   required := isRequired qmQueries.required routeQueries,
                   schema := makeRef t.name }] :=
  getQueryParams_queries_last mdQueries routeQueries
    [{ «in» := "query", name := "q", required := false,
       schema := SchemaObj.prim "string" },
     { «in» := "query", name := "limit", required := true,
       schema := SchemaObj.prim "number" },
     { «in» := "query", name := "ListQuery", required := false,
       schema := makeRef "ListQuery" }]
    qmQueries (by decide) (by decide)

/-! ## Claim C6 -/

theorem getPathParams_isSome (md : Metadata) (r : IRoute)
    (h : ∀ p ∈ r.params, (recoverType md p.object p.method p.index).isSome = true) :
    (getPathParams md r).isSome = true := by
  unfold getPathParams
  apply optionMapM_isSome
  intro name _
  unfold pathEntry
  rcases hf : r.params.find? (fun m => m.name == some name && m.type == "param")
      with _ | meta
  · simp [hf]
  · have hrec := h meta (List.mem_of_find?_eq_some hf)
    rcases ht : recoverType md meta.object meta.method meta.index with _ | t
    · rw [ht] at hrec; simp at hrec
    · simp [hf, ht]

theorem getQueryParams_isSome (md : Metadata) (r : IRoute)
    (h : ∀ p ∈ r.params, (recoverType md p.object p.method p.index).isSome = true) :
    (getQueryParams md r).isSome = true := by
  unfold getQueryParams
  have hbase : (optionMapM (queryEntry md r)
      (r.params.filter (fun m => m.type == "query"))).isSome = true := by
    apply optionMapM_isSome
    intro m hm
    have hrec := h m (List.mem_of_mem_filter hm)
    unfold queryEntry
    rcases ht : recoverType md m.object m.method m.index with _ | t
    · rw [ht] at hrec; simp at hrec
    · simp
  rcases hb : optionMapM (queryEntry md r)
      (r.params.filter (fun m => m.type == "query")) with _ | base
  · rw [hb] at hbase; simp at hbase
  · rcases hf : r.params.find? (fun m => m.type == "queries") with _ | qm
    · simp [hb, hf]
    · have hrec := h qm (List.mem_of_find?_eq_some hf)
      rcases ht : recoverType md qm.object qm.method qm.index with _ | t
      · rw [ht] at hrec; simp at hrec
      · simp [hb, hf, ht]

theorem getRequestBody_isSome (md : Metadata) (r : IRoute)
    (h : ∀ p ∈ r.params, (recoverType md p.object p.method p.index).isSome = true) :
    (getRequestBody md r).isSome = true := by
  unfold getRequestBody
  rcases hf : r.params.find? (fun m => m.type == "body") with _ | meta
  · simp [hf]
  · have hrec := h meta (List.mem_of_find?_eq_some hf)
    rcases ht : recoverType md meta.object meta.method meta.index with _ | t
    · rw [ht] at hrec; simp at hrec
    · simp [hf, ht]

theorem getOperation_isSome (md : Metadata) (r : IRoute)
    (h : ∀ p ∈ r.params, (recoverType md p.object p.method p.index).isSome = true) :
    (getOperation md r).isSome = true := by
  unfold getOperation
  rcases hp : getPathParams md r with _ | pp
  · have := getPathParams_isSome md r h
    rw [hp] at this; simp at this
  · rcases hq : getQueryParams md r with _ | qp
    · have := getQueryParams_isSome md r h
      rw [hq] at this; simp at this
    · rcases hrb : getRequestBody md r with _ | rb
      · have := getRequestBody_isSome md r h
        rw [hrb] at this; simp at this
      · simp [hp, hq, hrb]

theorem getPaths_isSome (md : Metadata) (routes : List IRoute)
    (h : ∀ r ∈ routes, ∀ p ∈ r.params,
      (recoverType md p.object p.method p.index).isSome = true) :
    (getPaths md routes).isSome = true := by
  unfold getPaths
  have hfr : (optionMapM (routeFragment md) routes).isSome = true := by
    apply optionMapM_isSome
    intro r hr
    unfold routeFragment
    rcases ho : getOperation md r with _ | op
    · have := getOperation_isSome md r (h r hr)
      rw [ho] at this; simp at this
    · simp [ho]
  rcases hm : optionMapM (routeFragment md) routes with _ | frags
  · rw [hm] at hfr; simp at hfr
  · rcases frags with _ | ⟨f, fs⟩ <;> simp [hm]

/-- The empty reflect-metadata store: no parameter types were recorded. -/
def mdEmpty : Metadata := fun _ _ => none

/-- A route declaring a `@Body` parameter whose type was never recorded in
the metadata store. -/
def routeBodyParam : IRoute :=
  { action := { route := "", type := "post", method := "save", target := { name := "C" } },
    controller := { route := "/c", type := "json", target := { name := "C" } },
    options := { routePfx := none, defaults := none },
    params := [{ index := 0, name := none, object := 0, method := "save",
                 required := none, type := "body" }],
    responseHandlers := [] }

/-- Counterexample to C6 as stated: with a declared `@Body` parameter but
no recorded metadata, `getRequestBody` accesses a property of `undefined`
and throws (embedded as `none`), and the exception propagates through
`getSpec`; so the generator is not total on arbitrary inputs. -/
theorem getSpec_throw_counterexample :
    getRequestBody mdEmpty routeBodyParam = none ∧
    getSpec mdEmpty [routeBodyParam] = none := by
  decide

/-- C6 (amended): `getSpec` (and every operation it calls) never throws
and never returns a failure value, provided the reflect-metadata store
recovers a runtime type for every declared parameter descriptor of every
route; missing or malformed route metadata otherwise degrades silently
(absent names become `""`, unmatched placeholders get default entries). -/
theorem getSpec_no_throw (md : Metadata) (routes : List IRoute)
    (h : ∀ r ∈ routes, ∀ p ∈ r.params,
      (recoverType md p.object p.method p.index).isSome = true) :
    (getSpec md routes).isSome = true := by
  unfold getSpec
  rcases hp : getPaths md routes with _ | paths
  · have := getPaths_isSome md routes h
    rw [hp] at this; simp at this
  · simp [hp]

theorem getSpec_no_throw_witness :
    (∀ r ∈ [routeSample], ∀ p ∈ r.params,
      (recoverType mdSample p.object p.method p.index).isSome = true) ∧
    (getSpec mdSample [routeSample]).isSome = true :=
  ⟨by decide, getSpec_no_throw mdSample [routeSample] (by decide)⟩

/-! ## Shape lemmas for generated parameters -/

theorem getPathParams_shape (md : Metadata) (r : IRoute) (ps : List ParameterObject)
    (h : getPathParams md r = some ps) :
    ∀ q ∈ ps, q.«in» = "path" ∧ ∃ t, q.schema = SchemaObj.prim t := by
  simp only [getPathParams] at h
  intro q hq
  rcases optionMapM_mem h q hq with ⟨name, _, hpe⟩
  simp only [pathEntry] at hpe
  rcases hf : r.params.find? (fun m => m.name == some name && m.type == "param")
      with _ | meta <;> simp only [hf] at hpe
  · rw [Option.some_inj] at hpe
    rw [← hpe]
    exact ⟨rfl, "string", rfl⟩
  · rcases ht : recoverType md meta.object meta.method meta.index with _ | t <;>
      simp only [ht] at hpe
    · exact absurd hpe (by simp)
    · rw [Option.some_inj] at hpe
      rw [← hpe]
      exact ⟨rfl, _, rfl⟩

theorem getQueryParams_shape (md : Metadata) (r : IRoute) (qs : List ParameterObject)
    (h : getQueryParams md r = some qs) :
    ∀ q ∈ qs, q.«in» = "query" ∧
      ((∃ t, q.schema = SchemaObj.prim t) ∨ (∃ n, q.schema = makeRef n)) := by
  simp only [getQueryParams] at h
  rcases hb : optionMapM (queryEntry md r) (r.params.filter (fun m => m.type == "query"))
      with _ | base <;> simp only [hb] at h
  · exact absurd h (by simp)
  · have hbase : ∀ q ∈ base, q.«in» = "query" ∧
        ((∃ t, q.schema = SchemaObj.prim t) ∨ (∃ n, q.schema = makeRef n)) := by
      intro q hq
      rcases optionMapM_mem hb q hq with ⟨m, _, hqe⟩
      simp only [queryEntry] at hqe
      rcases ht : recoverType md m.object m.method m.index with _ | t <;>
        simp only [ht] at hqe
      · exact absurd hqe (by simp)
      · rw [Option.some_inj] at hqe
        rw [← hqe]
        exact ⟨rfl, Or.inl ⟨_, rfl⟩⟩
    rcases hf : r.params.find? (fun m => m.type == "queries") with _ | qm <;>
      simp only [hf] at h
    · rw [Option.some_inj] at h
      rw [← h]
      exact hbase
    · rcases ht : recoverType md qm.object qm.method qm.index with _ | t <;>
        simp only [ht] at h
      · exact absurd h (by simp)
      · rw [Option.some_inj] at h
        rw [← h]
        intro q hq
        rcases List.mem_append.mp hq with hmem | hmem
        · exact hbase q hmem
        · simp only [List.mem_singleton] at hmem
          rw [hmem]
          exact ⟨rfl, Or.inr ⟨_, rfl⟩⟩

/-! ## Claim C7 -/

/-- C7: `getOperation(route).parameters` is the concatenation of the path
parameters (in path order) with the query parameters (in declaration
order), path entries first (the whole key being omitted when both are
empty), and every entry's schema either carries an inline `type` or is a
non-empty `$ref` object. -/
theorem getOperation_parameters (md : Metadata) (r : IRoute) (op : OperationObject)
    (pp qp : List ParameterObject)
    (hp : getPathParams md r = some pp) (hq : getQueryParams md r = some qp)
    (ho : getOperation md r = some op) :
    op.parameters = (if pp ++ qp = [] then none else some (pp ++ qp)) ∧
    ∀ ps, op.parameters = some ps → ∀ q ∈ ps,
      q.schema.type.isSome = true ∨ q.schema.ref.isSome = true := by
  simp only [getOperation] at ho
  rcases hrb : getRequestBody md r with _ | rb <;> simp only [hp, hq, hrb] at ho
  · exact absurd ho (by simp)
  · rw [Option.some_inj] at ho
    have hpar : op.parameters = (if pp ++ qp = [] then none else some (pp ++ qp)) := by
      rw [← ho]
    refine ⟨hpar, ?_⟩
    intro ps hps q hqmem
    rw [hpar] at hps
    by_cases hemp : pp ++ qp = []
    · rw [if_pos hemp] at hps
      exact absurd hps (by simp)
    · rw [if_neg hemp, Option.some_inj] at hps
      subst hps
      rcases List.mem_append.mp hqmem with hmem | hmem
      · rcases getPathParams_shape md r pp hp q hmem with ⟨_, t, hts⟩
        left; rw [hts]; rfl
      · rcases getQueryParams_shape md r qp hq q hmem with ⟨_, hcase⟩
        rcases hcase with ⟨t, hts⟩ | ⟨n, hts⟩
        · left; rw [hts]; rfl
        · right; rw [hts]; rfl

/-- The operation object `getOperation` produces for `routeSample`. -/
def opSample : OperationObject :=
  { operationId := some "UserController.getOne",
    parameters := some [{ «in» := "path", name := "id", required := false,
                          schema := SchemaObj.prim "number" }],
    requestBody := none,
    responses := some [("200",
      { content := [("application/json", { schema := none })],
        description := "Successful response" })],
    summary := some "Get one",
    tags := some ["User"] }

theorem sanity_getOperation : getOperation mdSample routeSample = some opSample := by
  decide

theorem getOperation_parameters_witness :
    opSample.parameters =
      (if ([{ «in» := "path", name := "id", required := false,
              schema := SchemaObj.prim "number" }] ++ ([] : List ParameterObject)) = []
       then none
       else some ([{ «in» := "path", name := "id", required := false,
                     schema := SchemaObj.prim "number" }] ++ [])) :=
  (getOperation_parameters mdSample routeSample opSample
    [{ «in» := "path", name := "id", required := false,
       schema := SchemaObj.prim "number" }]
    [] (by decide) (by decide) (by decide)).1

/-! ## Claim C4 -/

/-- C4: `getPaths [a, b]` yields two independent path keys when the full
paths differ, both methods under one key when the paths agree but the
methods differ, and the later route's operation deep-merged field by field
over the earlier one (not a wholesale replacement) when both path and
method agree. -/
theorem getPaths_merge (md : Metadata) (a b : IRoute) (opA opB : OperationObject)
    (ha : getOperation md a = some opA) (hb : getOperation md b = some opB) :
    (getFullPath a ≠ getFullPath b →
      getPaths md [a, b] = some [(getFullPath a, [(a.action.type, opA)]),
                                 (getFullPath b, [(b.action.type, opB)])]) ∧
    (getFullPath a = getFullPath b → a.action.type ≠ b.action.type →
      getPaths md [a, b] =
        some [(getFullPath a, [(a.action.type, opA), (b.action.type, opB)])]) ∧
    (getFullPath a = getFullPath b → a.action.type = b.action.type →
      getPaths md [a, b] =
        some [(getFullPath a, [(a.action.type, mergeOperation opA opB)])]) := by
  have hmm : optionMapM (routeFragment md) [a, b] =
      some [(getFullPath a, [(a.action.type, opA)]),
            (getFullPath b, [(b.action.type, opB)])] := by
    simp [optionMapM, routeFragment, ha, hb]
  have hgp : getPaths md [a, b] =
      some (mergePathObj [(getFullPath a, [(a.action.type, opA)])]
        [(getFullPath b, [(b.action.type, opB)])]) := by
    simp only [getPaths, hmm]
    rfl
  refine ⟨?_, ?_, ?_⟩
  · intro hne
    rw [hgp]
    simp [mergePathObj, mergeAssoc, insertMerge, hne]
  · intro heq hne
    rw [hgp]
    simp [mergePathObj, mergeAssoc, insertMerge, mergeMethods, ← heq, hne]
  · intro heq heqt
    rw [hgp]
    simp [mergePathObj, mergeAssoc, insertMerge, mergeMethods, ← heq, ← heqt]

/-- A second sample route with a different full path than `routeSample`. -/
def routeSecond : IRoute :=
  { action := { route := "", type := "get", method := "list",
                target := { name := "PetController" } },
    controller := { route := "/pets", type := "json",
                    target := { name := "PetController" } },
    options := { routePfx := none, defaults := none },
    params := [], responseHandlers := [] }

/-- The operation object `getOperation` produces for `routeSecond`. -/
def opSecond : OperationObject :=
  { operationId := some "PetController.list",
    parameters := none,
    requestBody := none,
    responses := some [("200",
      { content := [("application/json", { schema := none })],
        description := "Successful response" })],
    summary := some "List",
    tags := some ["Pet"] }

theorem getPaths_merge_witness :
    getPaths mdSample [routeSample, routeSecond] =
      some [(getFullPath routeSample, [(routeSample.action.type, opSample)]),
            (getFullPath routeSecond, [(routeSecond.action.type, opSecond)])] :=
  (getPaths_merge mdSample routeSample routeSecond opSample opSecond
    (by decide) (by decide)).1 (by decide)

/-! ## Schema-reference hygiene (towards claim C9) -/

/-- Every `$ref` string of a schema points into the schema registry. -/
abbrev SchemaRefOk (s : SchemaObj) : Prop :=
  ∀ rf, s.ref = some rf → ∃ n, rf = "#/components/schemas/" ++ n

/-- Every schema inside a content map points into the schema registry. -/
abbrev ContentRefOk (c : List (String × MediaObj)) : Prop :=
  ∀ e ∈ c, ∀ s, e.2.schema = some s → SchemaRefOk s

/-- Every schema reachable from an operation points into the registry. -/
abbrev OperationRefOk (op : OperationObject) : Prop :=
  (∀ ps, op.parameters = some ps → ∀ q ∈ ps, SchemaRefOk q.schema) ∧
  (∀ rb, op.requestBody = some rb → ContentRefOk rb.content) ∧
  (∀ rs, op.responses = some rs → ∀ e ∈ rs, ContentRefOk e.2.content)

/-- Every schema reachable from a paths object points into the registry. -/
abbrev PathsRefOk (ps : PathObject) : Prop :=
  ∀ e ∈ ps, ∀ m ∈ e.2, OperationRefOk m.2

theorem mergeSchema_refOk {a b : SchemaObj}
    (hA : SchemaRefOk a) (hB : SchemaRefOk b) : SchemaRefOk (mergeSchema a b) := by
  intro rf hrf
  simp only [mergeSchema] at hrf
  rcases hbr : b.ref with _ | rb <;> rw [hbr] at hrf
  · exact hA rf (by simpa using hrf)
  · exact hB rf (by rw [hbr]; simpa using hrf)

theorem mergeOptField_forall {P : α → Prop} {m : α → α → α}
    (hm : ∀ x y, P x → P y → P (m x y)) :
    ∀ {oa ob : Option α}, (∀ x, oa = some x → P x) → (∀ x, ob = some x → P x) →
      ∀ x, mergeOptField m oa ob = some x → P x := by
  intro oa ob hA hB x hx
  rcases oa with _ | a <;> rcases ob with _ | b <;> simp only [mergeOptField] at hx
  · exact absurd hx (by simp)
  · exact (Option.some_inj.mp hx) ▸ hB b rfl
  · exact (Option.some_inj.mp hx) ▸ hA a rfl
  · exact (Option.some_inj.mp hx) ▸ hm a b (hA a rfl) (hB b rfl)

theorem mergeList_forall {P : α → Prop} {m : α → α → α}
    (hm : ∀ x y, P x → P y → P (m x y)) :
    ∀ {l1 l2 : List α}, (∀ x ∈ l1, P x) → (∀ x ∈ l2, P x) →
      ∀ x ∈ mergeList m l1 l2, P x := by
  intro l1
  induction l1 with
  | nil =>
    intro l2 _ hB x hx
    rcases l2 with _ | ⟨b, bs⟩ <;> simp only [mergeList] at hx
    · exact absurd hx (by simp)
    · exact hB x hx
  | cons a as ih =>
    intro l2 hA hB x hx
    rcases l2 with _ | ⟨b, bs⟩ <;> simp only [mergeList] at hx
    · exact hA x hx
    · rcases List.mem_cons.mp hx with hx | hx
      · rw [hx]
        exact hm a b (hA a (List.mem_cons_self a as)) (hB b (List.mem_cons_self b bs))
      · exact ih (fun y hy => hA y (List.mem_cons_of_mem a hy))
          (fun y hy => hB y (List.mem_cons_of_mem b hy)) x hx

theorem insertMerge_forall {P : β → Prop} {m : β → β → β}
    (hm : ∀ x y, P x → P y → P (m x y)) :
    ∀ {l : List (String × β)} {k : String} {v : β},
      (∀ e ∈ l, P e.2) → P v → ∀ e ∈ insertMerge m l k v, P e.2 := by
  intro l
  induction l with
  | nil =>
    intro k v _ hv e he
    simp only [insertMerge] at he
    simp only [List.mem_singleton] at he
    rw [he]
    exact hv
  | cons a as ih =>
    intro k v hl hv e he
    rcases a with ⟨k1, v1⟩
    simp only [insertMerge] at he
    by_cases hk : k1 = k
    · rw [if_pos hk] at he
      rcases List.mem_cons.mp he with he | he
      · rw [he]
        exact hm v1 v (hl (k1, v1) (List.mem_cons_self _ _)) hv
      · exact hl e (List.mem_cons_of_mem _ he)
    · rw [if_neg hk] at he
      rcases List.mem_cons.mp he with he | he
      · rw [he]
        exact hl (k1, v1) (List.mem_cons_self _ _)
      · exact ih (fun y hy => hl y (List.mem_cons_of_mem _ hy)) hv e he

theorem mergeAssoc_forall {P : β → Prop} {m : β → β → β}
    (hm : ∀ x y, P x → P y → P (m x y)) :
    ∀ {src dst : List (String × β)},
      (∀ e ∈ dst, P e.2) → (∀ e ∈ src, P e.2) → ∀ e ∈ mergeAssoc m dst src, P e.2 := by
  intro src
  induction src with
  | nil =>
    intro dst hd _ e he
    simp only [mergeAssoc, List.foldl] at he
    exact hd e he
  | cons b bs ih =>
    intro dst hd hs e he
    simp only [mergeAssoc, List.foldl] at he
    have hd' : ∀ e ∈ insertMerge m dst b.1 b.2, P e.2 :=
      insertMerge_forall hm hd (hs b (List.mem_cons_self b bs))
    have hs' : ∀ e ∈ bs, P e.2 := fun y hy => hs y (List.mem_cons_of_mem b hy)
    exact ih hd' hs' e he

theorem mergeMedia_refOk {a b : MediaObj}
    (hA : ∀ s, a.schema = some s → SchemaRefOk s)
    (hB : ∀ s, b.schema = some s → SchemaRefOk s) :
    ∀ s, (mergeMedia a b).schema = some s → SchemaRefOk s :=
  mergeOptField_forall (P := fun s => SchemaRefOk s)
    (fun _ _ hx hy => mergeSchema_refOk hx hy) hA hB

theorem mergeContent_refOk {a b : List (String × MediaObj)}
    (hA : ContentRefOk a) (hB : ContentRefOk b) :
    ContentRefOk (mergeAssoc mergeMedia a b) :=
  mergeAssoc_forall (P := fun mo : MediaObj => ∀ s, mo.schema = some s → SchemaRefOk s)
    (fun _ _ hx hy => mergeMedia_refOk hx hy) hA hB

theorem mergeOperation_refOk {a b : OperationObject}
    (hA : OperationRefOk a) (hB : OperationRefOk b) :
    OperationRefOk (mergeOperation a b) := by
  refine ⟨?_, ?_, ?_⟩
  · intro ps hps q hq
    exact mergeOptField_forall (P := fun l : List ParameterObject => ∀ q ∈ l, SchemaRefOk q.schema)
      (fun x y hx hy => mergeList_forall (P := fun q : ParameterObject => SchemaRefOk q.schema)
        (fun u v hu hv => mergeSchema_refOk hu hv) hx hy)
      hA.1 hB.1 ps hps q hq
  · intro rb hrb
    exact mergeOptField_forall (P := fun rb : RequestBodyObject => ContentRefOk rb.content)
      (fun x y hx hy => mergeContent_refOk hx hy)
      hA.2.1 hB.2.1 rb hrb
  · intro rs hrs
    exact mergeOptField_forall (P := fun l : List (String × ResponseObject) => ∀ e ∈ l, ContentRefOk e.2.content)
      (fun x y hx hy => mergeAssoc_forall (P := fun ro : ResponseObject => ContentRefOk ro.content)
        (fun u v hu hv => mergeContent_refOk hu hv) hx hy)
      hA.2.2 hB.2.2 rs hrs

theorem mergeMethods_refOk {a b : List (String × OperationObject)}
    (hA : ∀ e ∈ a, OperationRefOk e.2) (hB : ∀ e ∈ b, OperationRefOk e.2) :
    ∀ e ∈ mergeMethods a b, OperationRefOk e.2 :=
  mergeAssoc_forall (P := fun op => OperationRefOk op)
    (fun _ _ hx hy => mergeOperation_refOk hx hy) hA hB

theorem mergePathObj_refOk {a b : PathObject}
    (hA : PathsRefOk a) (hB : PathsRefOk b) : PathsRefOk (mergePathObj a b) :=
  mergeAssoc_forall (P := fun ms : List (String × OperationObject) => ∀ m2 ∈ ms, OperationRefOk m2.2)
    (fun _ _ hx hy => mergeMethods_refOk hx hy) hA hB

theorem getRequestBody_refOk (md : Metadata) (r : IRoute) (rb : RequestBodyObject)
    (h : getRequestBody md r = some (some rb)) : ContentRefOk rb.content := by
  simp only [getRequestBody] at h
  rcases hf : r.params.find? (fun m => m.type == "body") with _ | meta <;>
    simp only [hf] at h
  · exact absurd h (by simp)
  · rcases ht : recoverType md meta.object meta.method meta.index with _ | t <;>
      simp only [ht] at h
    · exact absurd h (by simp)
    · have hrb := Option.some_inj.mp (Option.some_inj.mp h)
      rw [← hrb]
      intro e he s hs
      simp only [List.mem_singleton] at he
      rw [he] at hs
      have hs' : makeRef t.name = s := Option.some_inj.mp hs
      rw [← hs']
      intro rf hrf
      exact ⟨t.name, (Option.some_inj.mp hrf).symm⟩

theorem getResponses_refOk (r : IRoute) :
    ∀ e ∈ getResponses r, ContentRefOk e.2.content := by
  intro e he
  simp only [getResponses, List.mem_singleton] at he
  rw [he]
  intro e' he' s hs
  simp only [List.mem_singleton] at he'
  rw [he'] at hs
  exact absurd hs (by simp)

theorem getOperation_refOk (md : Metadata) (r : IRoute) (op : OperationObject)
    (ho : getOperation md r = some op) : OperationRefOk op := by
  simp only [getOperation] at ho
  rcases hp : getPathParams md r with _ | pp <;> simp only [hp] at ho
  · exact absurd ho (by simp)
  · rcases hq : getQueryParams md r with _ | qp <;> simp only [hq] at ho
    · exact absurd ho (by simp)
    · rcases hrb : getRequestBody md r with _ | rb <;> simp only [hrb] at ho
      · exact absurd ho (by simp)
      · rw [Option.some_inj] at ho
        refine ⟨?_, ?_, ?_⟩
        · intro ps hps q hq2
          rw [← ho] at hps
          change (if pp ++ qp = [] then none else some (pp ++ qp)) = some ps at hps
          by_cases hemp : pp ++ qp = []
          · rw [if_pos hemp] at hps
            exact absurd hps (by simp)
          · rw [if_neg hemp, Option.some_inj] at hps
            subst hps
            rcases List.mem_append.mp hq2 with hmem | hmem
            · rcases getPathParams_shape md r pp hp q hmem with ⟨_, t, hts⟩
              intro rf hrf
              rw [hts] at hrf
              exact absurd hrf (by simp [SchemaObj.prim])
            · rcases getQueryParams_shape md r qp hq q hmem with ⟨_, hcase⟩
              rcases hcase with ⟨t, hts⟩ | ⟨n, hts⟩
              · intro rf hrf
                rw [hts] at hrf
                exact absurd hrf (by simp [SchemaObj.prim])
              · intro rf hrf
                rw [hts] at hrf
                simp only [makeRef] at hrf
                exact ⟨n, (Option.some_inj.mp hrf).symm⟩
        · intro rb' hrb'
          rw [← ho] at hrb'
          change rb = some rb' at hrb'
          exact getRequestBody_refOk md r rb' (by rw [hrb, hrb'])
        · intro rs hrs
          rw [← ho] at hrs
          change (if getResponses r = [] then none else some (getResponses r)) = some rs at hrs
          by_cases hre : getResponses r = []
          · rw [if_pos hre] at hrs
            exact absurd hrs (by simp)
          · rw [if_neg hre, Option.some_inj] at hrs
            subst hrs
            exact fun e he => getResponses_refOk r e he

theorem getPaths_refOk (md : Metadata) (routes : List IRoute) (ps : PathObject)
    (h : getPaths md routes = some ps) : PathsRefOk ps := by
  simp only [getPaths] at h
  rcases hm : optionMapM (routeFragment md) routes with _ | frags <;>
    simp only [hm] at h
  · exact absurd h (by simp)
  · have hfr : ∀ f ∈ frags, ∀ m2 ∈ f.2, OperationRefOk m2.2 := by
      intro f hf
      rcases optionMapM_mem hm f hf with ⟨r, _, hrf⟩
      simp only [routeFragment] at hrf
      rcases ho : getOperation md r with _ | op <;> simp only [ho] at hrf
      · exact absurd hrf (by simp)
      · rw [Option.some_inj] at hrf
        rw [← hrf]
        intro m2 hm2
        simp only [List.mem_singleton] at hm2
        rw [hm2]
        exact getOperation_refOk md r op ho
    rcases frags with _ | ⟨f, fs⟩
    · rw [Option.some_inj] at h
      rw [← h]
      intro e he
      exact absurd he (by simp)
    · rw [Option.some_inj] at h
      rw [← h]
      have hfold : ∀ (gs : List (String × List (String × OperationObject)))
          (acc : PathObject), PathsRefOk acc →
          (∀ g ∈ gs, ∀ m2 ∈ g.2, OperationRefOk m2.2) →
          PathsRefOk (gs.foldl (fun acc g => mergePathObj acc [g]) acc) := by
        intro gs
        induction gs with
        | nil => intro acc hacc _; exact hacc
        | cons g gs2 ih =>
          intro acc hacc hall
          simp only [List.foldl]
          apply ih
          · apply mergePathObj_refOk hacc
            intro e he
            simp only [List.mem_singleton] at he
            rw [he]
            exact hall g (List.mem_cons_self g gs2)
          · exact fun g2 hg2 => hall g2 (List.mem_cons_of_mem g hg2)
      apply hfold fs [f]
      · intro e he
        simp only [List.mem_singleton] at he
        rw [he]
        exact hfr f (List.mem_cons_self f fs)
      · exact fun g hg => hfr g (List.mem_cons_of_mem f hg)

/-! ## Claim C9 -/

/-- C9: `getSpec` always returns a document with `openapi = "3.0.0"`, an
info block with empty title and version `"1.0.0"`, `paths` equal to
`getPaths` of the routes, and an always-present, always-empty
`components.schemas` registry; schema bodies are never populated and every
`$ref` appearing anywhere in the document points into
`#/components/schemas/` by name. -/
theorem getSpec_document (md : Metadata) (routes : List IRoute) (spec : OpenAPIObject)
    (h : getSpec md routes = some spec) :
    spec.openapi = "3.0.0" ∧ spec.info.title = "" ∧ spec.info.version = "1.0.0" ∧
    spec.components.schemas = [] ∧ getPaths md routes = some spec.paths ∧
    PathsRefOk spec.paths := by
  simp only [getSpec] at h
  rcases hp : getPaths md routes with _ | paths <;> simp only [hp] at h
  · exact absurd h (by simp)
  · rw [Option.some_inj] at h
    rw [← h]
    exact ⟨rfl, rfl, rfl, rfl, rfl, getPaths_refOk md routes paths hp⟩

/-- The document `getSpec` produces for the single sample route. -/
def specSample : OpenAPIObject :=
  { components := { schemas := [] },
    info := { title := "", version := "1.0.0" },
    openapi := "3.0.0",
    paths := [("/api/users/{id}", [("get", opSample)])] }

theorem getSpec_document_witness :
    specSample.openapi = "3.0.0" ∧ specSample.info.title = "" ∧
    specSample.info.version = "1.0.0" ∧ specSample.components.schemas = [] ∧
    getPaths mdSample [routeSample] = some specSample.paths ∧
    PathsRefOk specSample.paths :=
  getSpec_document mdSample [routeSample] specSample (by decide)

end RoutingControllersOpenapi
